import Mathlib

/-!
Verification of the provider-fallback translation orchestrator of
`javsp/web/translate.py` (with the configuration model of `javsp/config.py`).

Texts are modelled as `List Char`; Python's `str.replace` is embedded as a
fuel-driven left-to-right non-overlapping scanner; the network, the OpenAI
client and the Google endpoint are modelled as explicit oracles, so every
function here is a pure, executable Lean definition.
-/

namespace JavSpT

abbrev Str := List Char

/-- Boolean prefix test on character lists (same semantics as
`List.isPrefixOf`, re-derived here so that all its lemmas are local). -/
def isPre : Str → Str → Bool
  | [], _ => true
  | _ :: _, [] => false
  | a :: p, b :: s => a == b && isPre p s

/-- Boolean substring test: does `p` occur contiguously inside `s`? -/
def isInfixB (p : Str) : Str → Bool
  | [] => p.isEmpty
  | c :: s => isPre p (c :: s) || isInfixB p s

/-- Fuel-driven core of Python's `str.replace`: scan left to right, replace
each non-overlapping occurrence of `pat` by `rep`.  One unit of fuel is spent
per emitted chunk, and each step consumes at least one input character, so
`s.length` fuel always suffices. -/
def replaceFuel (pat rep : Str) : Nat → Str → Str
  | 0, s => s
  | _ + 1, [] => []
  | n + 1, c :: rest =>
    if isPre pat (c :: rest) then
      rep ++ replaceFuel pat rep n (rest.drop (pat.length - 1))
    else
      c :: replaceFuel pat rep n rest

/-- Python's `str.replace(pat, rep)` for a non-empty `pat`. -/
def replaceCore (pat rep s : Str) : Str :=
  replaceFuel pat rep s.length s

/-- Python's `str.replace(pat, rep)` including the empty-pattern case
(`"ab".replace("", "-") == "-a-b-"`). -/
def pyReplace (s pat rep : Str) : Str :=
  if pat = [] then rep ++ s.flatMap (fun c => c :: rep)
  else replaceCore pat rep s

/-- The protection token for one performer name:
`"[ACTRESS:" + name + "]"` (translate.py line 158). -/
def tok (name : Str) : Str := '[' :: "ACTRESS:".toList ++ name ++ [']']

/-- Entity protection (translate.py lines 155-158): each actress name is
replaced by its token, names processed in list order. -/
def protect (text : Str) (actress : List Str) : Str :=
  actress.foldl (fun acc name => pyReplace acc name (tok name)) text

/-- Entity restoration (translate.py lines 183-184): each token is replaced
back by the name, names processed in the same list order. -/
def restore (text : Str) (actress : List Str) : Str :=
  actress.foldl (fun acc name => pyReplace acc (tok name) name) text

/-- `protect` on `String`s. -/
def protectS (s : String) (actress : List String) : String :=
  (protect s.toList (actress.map String.toList)).asString

/-- `restore` on `String`s. -/
def restoreS (s : String) (actress : List String) : String :=
  (restore s.toList (actress.map String.toList)).asString

/-- Python's notion of whitespace: the characters `str.strip()` removes and
`str.isspace()` accepts (CPython): ASCII 0x09-0x0D, 0x1C-0x1F, space, NEL
(U+0085), NBSP (U+00A0), Ogham space (U+1680), the spaces U+2000-U+200A,
the separators U+2028/U+2029, U+202F, U+205F and the ideographic space
U+3000. -/
def pyIsSpace (c : Char) : Bool :=
  (0x09 ≤ c.toNat && c.toNat ≤ 0x0D) ||
  (0x1C ≤ c.toNat && c.toNat ≤ 0x1F) ||
  c.toNat == 0x20 || c.toNat == 0x85 || c.toNat == 0xA0 ||
  c.toNat == 0x1680 ||
  (0x2000 ≤ c.toNat && c.toNat ≤ 0x200A) ||
  c.toNat == 0x2028 || c.toNat == 0x2029 || c.toNat == 0x202F ||
  c.toNat == 0x205F || c.toNat == 0x3000

/-- Python's `str.strip()`: whitespace removed at both ends. -/
def pyStrip (t : Str) : Str :=
  ((t.dropWhile pyIsSpace).reverse.dropWhile pyIsSpace).reverse

/-- `pyStrip` on `String`s. -/
def pyStripS (s : String) : String := (pyStrip s.toList).asString

/-! ## Language detector

`javsp.func.is_chinese` / `javsp.func.is_japanese` are imported by
translate.py but `javsp/func.py` is not part of the sources under
verification, so they are modelled from the spec. -/

/-- Modelled from the spec: `javsp.func.is_chinese` is not under `src/`; per
the spec's LanguageDetector ("classifies input text as belonging to a
script/language family"), text is classified as Chinese script when it
contains a CJK unified ideograph. -/
def is_chinese (t : Str) : Bool :=
  t.any (fun c => 0x4E00 ≤ c.toNat && c.toNat ≤ 0x9FFF)

/-- Modelled from the spec: `javsp.func.is_japanese` is not under `src/`; per
the spec ("mixed Chinese/Japanese text containing kana is still translated"),
text is classified as Japanese script when it contains kana. -/
def is_japanese (t : Str) : Bool :=
  t.any (fun c => 0x3040 ≤ c.toNat && c.toNat ≤ 0x30FF)

/-- translate.py lines 26-46: skip translation when the text is empty or
whitespace-only, or when the target is a Chinese locale and the text is
already Chinese script without Japanese kana. -/
def should_skip_translation (text target_lang : Str) : Bool :=
  if text.isEmpty || (pyStrip text).isEmpty then true
  else if isPre ['z', 'h'] target_lang then
    if is_chinese text && !is_japanese text then true else false
  else false

/-! ## Compatible-provider client (translate.py lines 113-188)

The OpenAI import, the client construction and the chat-completion call are
the only effectful steps; they are abstracted into an `ApiOutcome` oracle.
The result dict `{'trans': ...}` / `{'error_code': ..., 'error_msg': ...}` is
the `CompatResult` sum. -/

/-- One configured provider (config.py `OpenAICompatibleProvider`). -/
structure ProviderSpec where
  base_url : String
  api_key : String
  model : String
  name : String
deriving DecidableEq

/-- `provider.name or f"{provider.model}"` (translate.py line 215): the
display name falls back to the model id when `name` is empty. -/
def displayName (p : ProviderSpec) : String :=
  if p.name = "" then p.model else p.name

/-- Result dict of `translate_with_openai_compatible`. -/
inductive CompatResult where
  | trans (t : String)
  | err (code : Int) (msg : String)
deriving DecidableEq

def isErrC : CompatResult → Bool
  | .trans _ => false
  | .err _ _ => true

def errMsgC : CompatResult → String
  | .trans _ => ""
  | .err _ m => m

/-- What the external world does when the client is exercised:
the `openai` import fails, an exception is raised during the call
(`transport` marks a network-level cause), or a response arrives whose
first choice carries `content` (`none` models missing/empty content). -/
inductive ApiOutcome where
  | importErr
  | raiseExn (transport : Bool) (msg : String)
  | respond (content : Option String)
deriving DecidableEq

/-- translate.py lines 127-188: error mapping and response handling of one
compatible-provider attempt.  The second component counts chat-completion
call attempts made during the invocation. -/
def translate_with_openai_compatible (api : ApiOutcome) (texts : String)
    (actress : List String) : CompatResult × Nat :=
  match api with
  | .importErr => (.err (-10) "openai package not installed", 0)
  | .raiseExn _ m => (.err (-11) m, 1)
  | .respond none => (.err (-12) "Empty response from API", 1)
  | .respond (some content) =>
      (.trans (restoreS (pyStripS content) actress), 1)

/-! ## Google fallback parsing and the provider chain
(translate.py lines 191-254) -/

/-- One entry of the `'sentences'` list of a Google response. -/
structure Sentence where
  orig : String
  trans : String
deriving DecidableEq

/-- The JSON body of a Google translate response, as read by the chain:
an optional `'sentences'` list and optional `'error_code'`/`'error_msg'`. -/
structure GoogleJson where
  sentences : Option (List Sentence)
  error_code : Option Int
  error_msg : Option String
deriving DecidableEq

/-- What `google_trans` does when invoked by the chain: return a body, or
raise (whose `repr` is carried as a string). -/
inductive Gres where
  | ok (j : GoogleJson)
  | exn (e : String)
deriving DecidableEq

/-- The chain's uniform result dict: success
`{'trans', 'provider', ['orig_break', 'trans_break']}` or failure
`{'error'}`. -/
inductive Outcome where
  | success (trans : String) (provider : String)
      (origBreak transBreak : Option (List String))
  | failure (err : String)
deriving DecidableEq

/-- Observable calls made by one `translate_with_providers` run:
one compatible-provider invocation (with its position), or the single
fallback invocation carrying the text it was handed. -/
inductive CallEv where
  | compat (i : Nat) (p : ProviderSpec)
  | fb (sent : String)
deriving DecidableEq

def codeStr : Option Int → String
  | some c => toString c
  | none => "unknown"

def msgStr : Option String → String
  | some m => m
  | none => "unknown error"

/-- translate.py lines 237-254: the fallback branch.  A body with
`'sentences'` is a success whose text is the concatenation of the per-
sentence `'trans'` fragments, with the parallel fragment lists attached;
otherwise the error carries `error_code`/`error_msg` with defaults
`'unknown'` / `'unknown error'`; an exception becomes
`{'error': "Google: " + repr(e)}`. -/
def fallbackParse (g : Gres) : Outcome :=
  match g with
  | .exn e => .failure ("Google: " ++ e)
  | .ok j =>
    match j.sentences with
    | some sents =>
        .success (String.join (sents.map (fun s => s.trans))) "Google"
          (some (sents.map (fun s => s.orig)))
          (some (sents.map (fun s => s.trans)))
    | none => .failure (codeStr j.error_code ++ ": " ++ msgStr j.error_msg)

/-- translate.py lines 212-233: try the providers in order, starting at
display index `i`.  Returns the first success (if any), the per-provider
error strings `name ++ ": " ++ msg` in attempt order, and the call trace. -/
def chainTry (call : ProviderSpec → CompatResult) :
    Nat → List ProviderSpec →
    Option (String × String) × List String × List CallEv
  | _, [] => (none, [], [])
  | i, p :: ps =>
    match call p with
    | .trans t => (some (t, displayName p), [], [.compat i p])
    | .err _ m =>
      let r := chainTry call (i + 1) ps
      (r.1, (displayName p ++ ": " ++ m) :: r.2.1, .compat i p :: r.2.2)

/-- translate.py lines 191-254: the provider chain.  `call` abstracts
`translate_with_openai_compatible` applied to `texts`; `g` abstracts the
single `google_trans(texts, ...)` invocation.  Returns the result dict, the
per-provider error strings collected for the warning log, and the trace of
client invocations. -/
def translate_with_providers (texts : String) (providers : List ProviderSpec)
    (call : ProviderSpec → CompatResult) (g : Gres) :
    Outcome × List String × List CallEv :=
  match chainTry call 0 providers with
  | (some (t, nm), errs, evs) => (.success t nm none none, errs, evs)
  | (none, errs, evs) => (fallbackParse g, errs, evs ++ [.fb texts])

/-! ## Google fallback rate-limit loop (translate.py lines 323-343) -/

/-- One HTTP response of the Google endpoint. -/
structure Resp where
  status : Nat
  reason : String
  body : GoogleJson
deriving DecidableEq

/-- The module-level initial value of `_google_trans_wait`. -/
def google_trans_wait_init : Nat := 60

/-- The `while r.status_code == 429` retry loop of `google_trans`:
`rand` is the stream of `random.randint(60, 90)` draws and `k` the index of
the next draw; `wait` is `_google_trans_wait`; `r` the response in hand and
`rs` the responses the endpoint will produce for the successive retries.
Returns the first non-throttled response together with the final wait and
draw index, or `none` when `rs` is exhausted while still throttled (the real
loop would still be waiting). -/
def gloop (rand : Nat → Nat) :
    Nat → Nat → Resp → List Resp → Option (Resp × Nat × Nat)
  | k, wait, r, rs =>
    if r.status ≠ 429 then some (r, wait, k)
    else
      match rs with
      | [] => none
      | r' :: rs' =>
        if r'.status = 429 then gloop rand (k + 1) (wait + rand k) r' rs'
        else gloop rand k wait r' rs'

/-- translate.py lines 324-343: full `google_trans` call.  `r0` is the
response of the initial GET; a 200 final response yields its JSON body,
any other status yields `{'error_code': status, 'error_msg': reason}`.
The final `_google_trans_wait` is returned alongside. -/
def google_trans_model (rand : Nat → Nat) (wait : Nat) (r0 : Resp)
    (rs : List Resp) : Option (GoogleJson × Nat) :=
  match gloop rand 0 wait r0 rs with
  | none => none
  | some (r, w, _) =>
    if r.status = 200 then some (r.body, w)
    else some (⟨none, some (Int.ofNat r.status), some r.reason⟩, w)

/-! ## Orchestrator (translate.py lines 49-109, config.py lines 245-258) -/

structure TransFields where
  title : Bool
  plot : Bool
deriving DecidableEq

/-- The `Translator` configuration section (config.py lines 248-258). -/
structure TranslatorCfg where
  fields : TransFields
  target_language : String
  title_mandatory : Bool
  auto_detect_language : Bool
deriving DecidableEq

/-- The metadata fields `translate_movie_info` reads and writes, including
the dynamically attached ones (`ori_plot`, `ori_title_break`,
`title_break`). -/
structure MovieInfoM where
  title : Option String
  ori_title : Option String
  plot : Option String
  ori_plot : Option String
  ori_title_break : Option (List String)
  title_break : Option (List String)
deriving DecidableEq

/-- Python truthiness of an optional string field. -/
def truthy : Option String → Bool
  | none => false
  | some s => !s.isEmpty

/-- Result of `translate_movie_info`: the updated metadata, the
`logger.warning` lines emitted, and the returned value (always `True`). -/
structure OrchResult where
  info : MovieInfoM
  warnings : List String
  returned : Bool
deriving DecidableEq

/-- translate.py lines 57-83: the title block.  `tr` abstracts
`translate_with_providers` applied to the field text. -/
def titleStep (cfg : TranslatorCfg) (tr : String → Outcome)
    (info : MovieInfoM) : MovieInfoM × List String :=
  if truthy info.title && cfg.fields.title && info.ori_title.isNone then
    if cfg.auto_detect_language && should_skip_translation
        (info.title.getD "").toList cfg.target_language.toList then
      (info, [])
    else
      match tr (info.title.getD "") with
      | .success t _ ob tb =>
        ({ info with
            ori_title := info.title
            title := some t
            ori_title_break := ob.or info.ori_title_break
            title_break := tb.or info.title_break }, [])
      | .failure e =>
        (info,
          if cfg.title_mandatory then ["标题翻译失败但继续处理: " ++ e] else [])
  else (info, [])

/-- translate.py lines 86-107: the plot block (failures only print, they are
never logged as warnings). -/
def plotStep (cfg : TranslatorCfg) (tr : String → Outcome)
    (info : MovieInfoM) : MovieInfoM :=
  if truthy info.plot && cfg.fields.plot then
    if cfg.auto_detect_language && should_skip_translation
        (info.plot.getD "").toList cfg.target_language.toList then
      info
    else
      match tr (info.plot.getD "") with
      | .success t _ _ _ => { info with ori_plot := info.plot, plot := some t }
      | .failure _ => info
  else info

/-- translate.py lines 49-109: `translate_movie_info` — title block, then
plot block, then `return True`. -/
def translate_movie_info (cfg : TranslatorCfg) (tr : String → Outcome)
    (info : MovieInfoM) : OrchResult :=
  let s1 := titleStep cfg tr info
  let i2 := plotStep cfg tr s1.1
  ⟨i2, s1.2, true⟩

/-- The compat-call trace the chain produces for a list of providers it
exhausts, display indices starting at `i`. -/
def idxFrom : Nat → List ProviderSpec → List CallEv
  | _, [] => []
  | i, p :: ps => .compat i p :: idxFrom (i + 1) ps

def isFbEv : CallEv → Bool
  | .fb _ => true
  | .compat _ _ => false

/-- A sequence of whole `google_trans` calls, threading the module-level
wait and the random stream position; `none` when some call never sees a
non-throttled response. -/
def callsFold (rand : Nat → Nat) : Nat × Nat → List (Resp × List Resp) →
    Option (Nat × Nat)
  | kw, [] => some kw
  | (k, w), (r0, rs) :: more =>
    match gloop rand k w r0 rs with
    | none => none
    | some (_, w', k') => callsFold rand (k', w') more

/-! ## Entity-protection round trip: definitions (C3) -/

/-- The fixed interior of a protection token after the opening bracket. -/
def tokInner : Str := "ACTRESS:".toList

/-- A usable entity: non-empty and free of the token delimiters. -/
def entOK (e : Str) : Bool :=
  !e.isEmpty && !e.contains '[' && !e.contains ']'

/-- Two entities do not interfere: neither occurs inside the other's
protection token (this in particular makes them distinct strings). -/
def pairOK (a b : Str) : Bool :=
  !isInfixB a (tok b) && !isInfixB b (tok a)

/-- Pairwise non-interference of an entity list. -/
def pwOK : List Str → Bool
  | [] => true
  | e :: es => es.all (pairOK e) && pwOK es

/-- Hypothesis bundle of the round-trip theorem: every entity is usable and
the entities are pairwise non-interfering. -/
def goodEnts (es : List Str) : Bool := es.all entOK && pwOK es

/-- A protected text seen as a sequence of plain characters and whole
protection-token blocks. -/
inductive Item where
  | ch (c : Char)
  | blk (e : Str)
deriving DecidableEq

/-- The literal text of an item sequence (blocks rendered as tokens). -/
def flattenI : List Item → Str
  | [] => []
  | .ch c :: I => c :: flattenI I
  | .blk e :: I => tok e ++ flattenI I

/-- The unprotected text of an item sequence (blocks rendered as their
entities). -/
def expandI : List Item → Str
  | [] => []
  | .ch c :: I => c :: expandI I
  | .blk e :: I => e ++ expandI I

/-- Expand every block of entity `e` back into plain characters. -/
def expandE (e : Str) : List Item → List Item
  | [] => []
  | .ch c :: I => .ch c :: expandE e I
  | .blk f :: I => (if f = e then f.map Item.ch else [.blk f]) ++ expandE e I

/-- Plain characters of an item sequence never open a token. -/
def WFc (I : List Item) : Prop := ∀ c, Item.ch c ∈ I → c ≠ '['

/-- All blocks of the item sequence carry entities from `S`. -/
def BlocksIn (I : List Item) (S : List Str) : Prop :=
  ∀ e, Item.blk e ∈ I → e ∈ S

/-- No occurrence of `pat` starts inside `s`, whatever text follows `s`. -/
def Blocked (pat s : Str) : Prop :=
  ∀ j, j < s.length → ∀ z, isPre pat (s.drop j ++ z) = false

/-! ## Chain lemmas and theorems (C1, C2, C9) -/

theorem chainTry_all_fail (call : ProviderSpec → CompatResult)
    (ps : List ProviderSpec) (hall : ∀ q ∈ ps, isErrC (call q) = true) :
    ∀ i, chainTry call i ps =
      (none, ps.map (fun q => displayName q ++ ": " ++ errMsgC (call q)),
       idxFrom i ps) := by
  induction ps with
  | nil => intro i; rfl
  | cons p ps ih =>
    intro i
    have hp := hall p (List.mem_cons_self p ps)
    have hrest : ∀ q ∈ ps, isErrC (call q) = true := fun q hq =>
      hall q (List.mem_cons_of_mem p hq)
    cases hc : call p with
    | trans t => rw [hc] at hp; simp [isErrC] at hp
    | err c m =>
      have h2 := ih hrest (i + 1)
      simp only [chainTry, List.append_eq, hc, h2, idxFrom, List.map_cons]
      simp [errMsgC, hc]

theorem chainTry_first_success (call : ProviderSpec → CompatResult)
    (p : ProviderSpec) (t : String) (post : List ProviderSpec)
    (hp : call p = .trans t) :
    ∀ pre : List ProviderSpec, (∀ q ∈ pre, isErrC (call q) = true) →
    ∀ i, chainTry call i (pre ++ p :: post) =
      (some (t, displayName p),
       pre.map (fun q => displayName q ++ ": " ++ errMsgC (call q)),
       idxFrom i (pre ++ [p])) := by
  intro pre
  induction pre with
  | nil => intro _ i; simp [chainTry, hp, idxFrom]
  | cons q pre ih =>
    intro hpre i
    have hq := hpre q (List.mem_cons_self q pre)
    have hrest : ∀ r ∈ pre, isErrC (call r) = true := fun r hr =>
      hpre r (List.mem_cons_of_mem q hr)
    cases hc : call q with
    | trans u => rw [hc] at hq; simp [isErrC] at hq
    | err c m =>
      have h2 := ih hrest (i + 1)
      simp only [List.cons_append, chainTry, List.append_eq, hc, h2, idxFrom,
        List.map_cons]
      simp [errMsgC, hc]

theorem chainTry_no_fb (call : ProviderSpec → CompatResult)
    (ps : List ProviderSpec) :
    ∀ i s, CallEv.fb s ∉ (chainTry call i ps).2.2 := by
  induction ps with
  | nil => intro i s h; simp [chainTry] at h
  | cons p ps ih =>
    intro i s h
    cases hc : call p with
    | trans t =>
      simp [chainTry, hc] at h
    | err c m =>
      simp only [chainTry, hc] at h
      rcases List.mem_cons.mp h with h1 | h2
      · exact CallEv.noConfusion h1
      · exact ih (i + 1) s h2

theorem idxFrom_no_fb (ps : List ProviderSpec) :
    ∀ i, (idxFrom i ps).countP isFbEv = 0 := by
  induction ps with
  | nil => intro i; rfl
  | cons p ps ih =>
    intro i
    simp [idxFrom, List.countP_cons, isFbEv, ih (i + 1)]

/-- C1: on a non-empty provider list the chain attempts providers strictly
in configured order, invokes the compatible client once per attempted
provider, returns the first success labelled with that provider's display
name without touching any later provider or the fallback, and records one
`name: errorMessage` string per failed provider in attempt order. -/
theorem chain_first_success (texts : String) (pre post : List ProviderSpec)
    (p : ProviderSpec) (t : String) (call : ProviderSpec → CompatResult)
    (g : Gres) (hpre : ∀ q ∈ pre, isErrC (call q) = true)
    (hp : call p = .trans t) :
    translate_with_providers texts (pre ++ p :: post) call g =
      (.success t (displayName p) none none,
       pre.map (fun q => displayName q ++ ": " ++ errMsgC (call q)),
       idxFrom 0 (pre ++ [p]))
    ∧ ∀ s, CallEv.fb s ∉
        (translate_with_providers texts (pre ++ p :: post) call g).2.2 := by
  have h := chainTry_first_success call p t post hp pre hpre 0
  constructor
  · simp only [translate_with_providers, h]
  · intro s hs
    simp only [translate_with_providers, h] at hs
    have : CallEv.fb s ∉ (chainTry call 0 (pre ++ p :: post)).2.2 :=
      chainTry_no_fb call (pre ++ p :: post) 0 s
    rw [h] at this
    exact this hs

/-- C1 witness: two providers, the first fails, the second succeeds. -/
theorem chain_first_success_witness :
    (∀ q ∈ [ProviderSpec.mk "u" "k" "m1" "p1"],
        isErrC ((fun q : ProviderSpec =>
          if q.name = "p2" then CompatResult.trans "译" else .err (-11) "boom") q) = true)
    ∧ translate_with_providers "txt"
        [⟨"u", "k", "m1", "p1"⟩, ⟨"u", "k", "m2", "p2"⟩]
        (fun q => if q.name = "p2" then CompatResult.trans "译" else .err (-11) "boom")
        (.ok ⟨none, none, none⟩) =
      (.success "译" "p2" none none, ["p1: boom"],
       [.compat 0 ⟨"u", "k", "m1", "p1"⟩, .compat 1 ⟨"u", "k", "m2", "p2"⟩]) := by
  refine ⟨by decide, ?_⟩
  have h := chain_first_success "txt" [⟨"u", "k", "m1", "p1"⟩] []
    ⟨"u", "k", "m2", "p2"⟩ "译"
    (fun q => if q.name = "p2" then CompatResult.trans "译" else .err (-11) "boom")
    (.ok ⟨none, none, none⟩) (by decide) (by decide)
  exact h.1.trans (by decide)

/-- C2 (amended): when every provider fails, the fallback is invoked exactly
once with the chain's outcome taken from it; one `name: errorMessage` string
per provider, in attempt order, is aggregated for the warning log, while the
returned failure dict carries only the fallback's error. -/
theorem chain_all_fail_fallback_once (texts : String)
    (providers : List ProviderSpec) (call : ProviderSpec → CompatResult)
    (g : Gres) (hall : ∀ q ∈ providers, isErrC (call q) = true) :
    translate_with_providers texts providers call g =
      (fallbackParse g,
       providers.map (fun q => displayName q ++ ": " ++ errMsgC (call q)),
       idxFrom 0 providers ++ [.fb texts])
    ∧ (translate_with_providers texts providers call g).2.2.countP isFbEv
        = 1 := by
  have h := chainTry_all_fail call providers hall 0
  have heq : translate_with_providers texts providers call g =
      (fallbackParse g,
       providers.map (fun q => displayName q ++ ": " ++ errMsgC (call q)),
       idxFrom 0 providers ++ [.fb texts]) := by
    simp only [translate_with_providers, h]
  refine ⟨heq, ?_⟩
  rw [heq]
  simp [List.countP_append, idxFrom_no_fb, isFbEv]

/-- C2 witness: one failing provider and a failing fallback. -/
theorem chain_all_fail_fallback_once_witness :
    (∀ q ∈ [ProviderSpec.mk "u" "k" "m1" "p1"],
        isErrC ((fun _ : ProviderSpec => CompatResult.err (-11) "boom") q) = true)
    ∧ translate_with_providers "txt" [⟨"u", "k", "m1", "p1"⟩]
        (fun _ => CompatResult.err (-11) "boom") (.ok ⟨none, none, none⟩) =
      (.failure "unknown: unknown error", ["p1: boom"],
       [.compat 0 ⟨"u", "k", "m1", "p1"⟩, .fb "txt"]) := by
  refine ⟨by decide, ?_⟩
  have h := chain_all_fail_fallback_once "txt" [⟨"u", "k", "m1", "p1"⟩]
    (fun _ => CompatResult.err (-11) "boom") (.ok ⟨none, none, none⟩) (by decide)
  exact h.1.trans (by decide)

/-- C2 counterexample: with one failing provider (recorded error
`"p1: boom"`) and a fallback returning a body without `'sentences'`, the
returned aggregate `Failure` is `{'error': "unknown: unknown error"}` — it
does not contain the per-provider error entry, contradicting the claim that
the failure outcome carries one entry per configured provider. -/
theorem chain_failure_payload_cex :
    (translate_with_providers "txt" [⟨"u", "k", "m1", "p1"⟩]
        (fun _ => CompatResult.err (-11) "boom") (.ok ⟨none, none, none⟩)).1 =
      .failure "unknown: unknown error"
    ∧ isInfixB "boom".toList "unknown: unknown error".toList = false
    ∧ isInfixB "p1: boom".toList "unknown: unknown error".toList = false := by
  decide

/-- C9 (amended): whatever text the chain hands to the fallback is exactly
the raw input text — no entity-protection substitution is applied by the
caller before the `google_trans` call. -/
theorem fallback_receives_raw (texts : String) (providers : List ProviderSpec)
    (call : ProviderSpec → CompatResult) (g : Gres) :
    ∀ s, CallEv.fb s ∈ (translate_with_providers texts providers call g).2.2 →
      s = texts := by
  intro s hs
  unfold translate_with_providers at hs
  cases hc : chainTry call 0 providers with
  | mk o r =>
    cases o with
    | some v =>
      cases v with
      | mk t nm =>
        rw [hc] at hs
        simp only at hs
        have := chainTry_no_fb call providers 0 s
        rw [hc] at this
        exact absurd hs this
    | none =>
      rw [hc] at hs
      simp only at hs
      rcases List.mem_append.mp hs with h1 | h2
      · have := chainTry_no_fb call providers 0 s
        rw [hc] at this
        exact absurd h1 this
      · rcases List.mem_singleton.mp h2 with h3
        cases h3
        rfl

/-- C9 witness: an empty provider list routes straight to the fallback,
which receives the raw text. -/
theorem fallback_receives_raw_witness :
    CallEv.fb "A x" ∈ (translate_with_providers "A x" []
        (fun _ => CompatResult.err 0 "") (.ok ⟨none, none, none⟩)).2.2
    ∧ ∀ s, CallEv.fb s ∈ (translate_with_providers "A x" []
        (fun _ => CompatResult.err 0 "") (.ok ⟨none, none, none⟩)).2.2 →
      s = "A x" :=
  ⟨by decide, fun s hs =>
    fallback_receives_raw "A x" [] (fun _ => CompatResult.err 0 "")
      (.ok ⟨none, none, none⟩) s hs⟩

/-- C9 counterexample: with protected entity `"A"` and text `"A x"`, the
fallback receives `"A x"` itself, while the entity-protecting substitution
used for compatible providers would have produced `"[ACTRESS:A] x"` — so the
text sent to the fallback does **not** have protection applied as the claim
states. -/
theorem fallback_not_protected_cex :
    (translate_with_providers "A x" []
        (fun _ => CompatResult.err 0 "") (.ok ⟨none, none, none⟩)).2.2 =
      [.fb "A x"]
    ∧ protectS "A x" ["A"] = "[ACTRESS:A] x"
    ∧ ("A x" : String) ≠ "[ACTRESS:A] x" := by
  decide

/-! ## Fallback response handling (C7) and compat error mapping (C8) -/

/-- C7 (amended): a fallback response is a success exactly when it carries a
`'sentences'` list, in which case the translated text is the concatenation
of the per-sentence `'trans'` fragments with the parallel `'orig'`/`'trans'`
fragment lists attached; otherwise the outcome is an error rendering the
`error_code`/`error_msg` fields with defaults `"unknown"` (absent code) and
`"unknown error"` (absent message); a raised exception becomes
`"Google: " ++ repr`. -/
theorem fallback_parse_spec :
    (∀ j : GoogleJson, ∀ sents, j.sentences = some sents →
      fallbackParse (.ok j) =
        .success (String.join (sents.map (fun s => s.trans))) "Google"
          (some (sents.map (fun s => s.orig)))
          (some (sents.map (fun s => s.trans))))
    ∧ (∀ j : GoogleJson, j.sentences = none →
      fallbackParse (.ok j) =
        .failure (codeStr j.error_code ++ ": " ++ msgStr j.error_msg))
    ∧ (∀ c, codeStr (some c) = toString c) ∧ codeStr none = "unknown"
    ∧ (∀ m, msgStr (some m) = m) ∧ msgStr none = "unknown error"
    ∧ (∀ e, fallbackParse (.exn e) = .failure ("Google: " ++ e)) := by
  refine ⟨?_, ?_, fun c => rfl, rfl, fun m => rfl, rfl, fun e => rfl⟩
  · intro j sents hj
    simp [fallbackParse, hj]
  · intro j hj
    simp [fallbackParse, hj]

/-- C7 witness: a two-sentence success body and a field-less error body. -/
theorem fallback_parse_spec_witness :
    fallbackParse (.ok ⟨some [⟨"お", "哦"⟩, ⟨"は", "哈"⟩], none, none⟩) =
      .success "哦哈" "Google" (some ["お", "は"]) (some ["哦", "哈"])
    ∧ fallbackParse (.ok ⟨none, some 403, none⟩) =
      .failure "403: unknown error" := by
  constructor
  · have h := fallback_parse_spec.1 ⟨some [⟨"お", "哦"⟩, ⟨"は", "哈"⟩], none, none⟩
      [⟨"お", "哦"⟩, ⟨"は", "哈"⟩] rfl
    exact h.trans (by decide)
  · have h := fallback_parse_spec.2.1 ⟨none, some 403, none⟩ rfl
    exact h.trans (by decide)

/-- C7 counterexample: a body without `'sentences'` and without error fields
yields `{'error': "unknown: unknown error"}`; the claim's stated default
(`"unknown"` for the absent message) would render `"unknown: unknown"`,
which is not what the code produces. -/
theorem fallback_unknown_default_cex :
    fallbackParse (.ok ⟨none, none, none⟩) = .failure "unknown: unknown error"
    ∧ ("unknown: unknown error" : String) ≠ "unknown: unknown" := by
  decide

/-- C8 (amended): the compatible client maps a missing `openai` library to
error code -10, an empty/missing response payload to -12, and **every**
exception raised during the call — transport-level or otherwise — to the
single catch-all code -11 carrying the exception's repr; a successful
response is stripped and actress-restored; at most one chat-completion
attempt is made per invocation, with no retries. -/
theorem compat_error_mapping :
    (∀ texts actress, translate_with_openai_compatible .importErr texts actress
      = (.err (-10) "openai package not installed", 0))
    ∧ (∀ b m texts actress,
        translate_with_openai_compatible (.raiseExn b m) texts actress
          = (.err (-11) m, 1))
    ∧ (∀ texts actress,
        translate_with_openai_compatible (.respond none) texts actress
          = (.err (-12) "Empty response from API", 1))
    ∧ (∀ c texts actress,
        translate_with_openai_compatible (.respond (some c)) texts actress
          = (.trans (restoreS (pyStripS c) actress), 1))
    ∧ (∀ api texts actress,
        (translate_with_openai_compatible api texts actress).2 ≤ 1) := by
  refine ⟨fun _ _ => rfl, fun _ _ _ _ => rfl, fun _ _ => rfl, fun _ _ _ => rfl,
    ?_⟩
  intro api texts actress
  cases api with
  | importErr => exact Nat.zero_le 1
  | raiseExn b m => exact Nat.le_refl 1
  | respond c => cases c <;> exact Nat.le_refl 1

/-- C8 counterexample: a transport-level exception and a non-transport
exception are mapped to the **same** error kind (code -11, message = repr),
so the code does not give transport failures a kind distinct from other
provider exceptions as the claim states. -/
theorem compat_error_kind_cex :
    (translate_with_openai_compatible (.raiseExn true "ConnectionError()")
        "t" []).1 = .err (-11) "ConnectionError()"
    ∧ (translate_with_openai_compatible (.raiseExn false "ValueError()")
        "t" []).1 = .err (-11) "ValueError()" := by
  decide

/-! ## Rate-limit backoff (C4) -/

theorem gloop_nonthrottled (rand : Nat → Nat) (k w : Nat) (r : Resp)
    (rs : List Resp) (h : r.status ≠ 429) :
    gloop rand k w r rs = some (r, w, k) := by
  unfold gloop
  simp [h]

theorem gloop_throttle_throttle (rand : Nat → Nat) (k w : Nat) (r r' : Resp)
    (rs' : List Resp) (h : r.status = 429) (h' : r'.status = 429) :
    gloop rand k w r (r' :: rs') = gloop rand (k + 1) (w + rand k) r' rs' := by
  conv_lhs => rw [gloop]
  simp [h, h']

theorem gloop_throttle_clear (rand : Nat → Nat) (k w : Nat) (r r' : Resp)
    (rs' : List Resp) (h : r.status = 429) (h' : r'.status ≠ 429) :
    gloop rand k w r (r' :: rs') = gloop rand k w r' rs' := by
  conv_lhs => rw [gloop]
  simp [h, h']

theorem gloop_wait_mono (rand : Nat → Nat) :
    ∀ (rs : List Resp) (k w : Nat) (r r' : Resp) (w' k' : Nat),
      gloop rand k w r rs = some (r', w', k') → w ≤ w' := by
  intro rs
  induction rs with
  | nil =>
    intro k w r r' w' k' h
    by_cases hs : r.status = 429
    · rw [gloop] at h; simp [hs] at h
    · rw [gloop_nonthrottled rand k w r [] hs] at h
      cases h
      exact Nat.le_refl w
  | cons q rs ih =>
    intro k w r r' w' k' h
    by_cases hs : r.status = 429
    · by_cases hq : q.status = 429
      · rw [gloop_throttle_throttle rand k w r q rs hs hq] at h
        exact Nat.le_trans (Nat.le_add_right w (rand k)) (ih _ _ _ _ _ _ h)
      · rw [gloop_throttle_clear rand k w r q rs hs hq] at h
        exact ih _ _ _ _ _ _ h
    · rw [gloop_nonthrottled rand k w r (q :: rs) hs] at h
      cases h
      exact Nat.le_refl w

theorem callsFold_wait_mono (rand : Nat → Nat) :
    ∀ (calls : List (Resp × List Resp)) (k w k' w' : Nat),
      callsFold rand (k, w) calls = some (k', w') → w ≤ w' := by
  intro calls
  induction calls with
  | nil =>
    intro k w k' w' h
    cases h
    exact Nat.le_refl w
  | cons c more ih =>
    intro k w k' w' h
    rcases c with ⟨r0, rs⟩
    rw [callsFold] at h
    cases hg : gloop rand k w r0 rs with
    | none => rw [hg] at h; cases h
    | some v =>
      rcases v with ⟨r1, w1, k1⟩
      rw [hg] at h
      exact Nat.le_trans (gloop_wait_mono rand rs k w r0 r1 w1 k1 hg)
        (ih _ _ _ _ h)

/-- C4: the fallback wait duration starts at the fixed baseline 60, never
decreases within any `google_trans` call or across any sequence of calls, is
increased (by the random draw) only when a retry after a throttled response
is itself throttled, and a run seeing three consecutive 429 responses
followed by a success ends with a strictly larger wait and returns the
success body. -/
theorem google_backoff_props :
    google_trans_wait_init = 60
    ∧ (∀ rand rs k w r r' w' k',
        gloop rand k w r rs = some (r', w', k') → w ≤ w')
    ∧ (∀ rand calls k w k' w',
        callsFold rand (k, w) calls = some (k', w') → w ≤ w')
    ∧ (∀ rand w r0 rs, r0.status ≠ 429 →
        gloop rand 0 w r0 rs = some (r0, w, 0))
    ∧ (∀ rand w r0 r1 rs, r0.status = 429 → r1.status ≠ 429 →
        gloop rand 0 w r0 (r1 :: rs) = some (r1, w, 0))
    ∧ (∀ (rand : Nat → Nat) w r0 r1 r2 r3,
        (∀ i, 60 ≤ rand i ∧ rand i ≤ 90) →
        r0.status = 429 → r1.status = 429 → r2.status = 429 →
        r3.status = 200 →
        google_trans_model rand w r0 [r1, r2, r3] =
          some (r3.body, w + rand 0 + rand 1)
        ∧ w < w + rand 0 + rand 1) := by
  refine ⟨rfl, ?_, ?_, ?_, ?_, ?_⟩
  · intro rand rs k w r r' w' k' h
    exact gloop_wait_mono rand rs k w r r' w' k' h
  · intro rand calls k w k' w' h
    exact callsFold_wait_mono rand calls k w k' w' h
  · intro rand w r0 rs h
    exact gloop_nonthrottled rand 0 w r0 rs h
  · intro rand w r0 r1 rs h0 h1
    rw [gloop_throttle_clear rand 0 w r0 r1 rs h0 h1]
    exact gloop_nonthrottled rand 0 w r1 rs h1
  · intro rand w r0 r1 r2 r3 hb h0 h1 h2 h3
    have h3' : r3.status ≠ 429 := by rw [h3]; decide
    have hrun : gloop rand 0 w r0 [r1, r2, r3] =
        some (r3, w + rand 0 + rand 1, 2) := by
      rw [gloop_throttle_throttle rand 0 w r0 r1 [r2, r3] h0 h1,
        gloop_throttle_throttle rand 1 (w + rand 0) r1 r2 [r3] h1 h2,
        gloop_throttle_clear rand 2 (w + rand 0 + rand 1) r2 r3 [] h2 h3']
      exact gloop_nonthrottled rand 2 (w + rand 0 + rand 1) r3 [] h3'
    constructor
    · simp [google_trans_model, hrun, h3]
    · have hb0 := (hb 0).1
      omega

/-- C4 witness: three concrete 429 responses, then a 200 with a body. -/
theorem google_backoff_props_witness :
    google_trans_model (fun _ => 60) 60
      ⟨429, "Too Many Requests", ⟨none, none, none⟩⟩
      [⟨429, "Too Many Requests", ⟨none, none, none⟩⟩,
       ⟨429, "Too Many Requests", ⟨none, none, none⟩⟩,
       ⟨200, "OK", ⟨some [⟨"お", "哦"⟩], none, none⟩⟩] =
      some (⟨some [⟨"お", "哦"⟩], none, none⟩, 180)
    ∧ 60 < 180 := by
  have h := google_backoff_props.2.2.2.2.2 (fun _ => 60) 60
    ⟨429, "Too Many Requests", ⟨none, none, none⟩⟩
    ⟨429, "Too Many Requests", ⟨none, none, none⟩⟩
    ⟨429, "Too Many Requests", ⟨none, none, none⟩⟩
    ⟨200, "OK", ⟨some [⟨"お", "哦"⟩], none, none⟩⟩
    (fun i => ⟨by norm_num, by norm_num⟩) rfl rfl rfl rfl
  exact ⟨h.1.trans (by norm_num), h.2⟩

/-! ## Language-skip heuristic (C5) -/

theorem pyStrip_isEmpty_iff (t : Str) :
    (pyStrip t).isEmpty = true ↔ ∀ c ∈ t, pyIsSpace c = true := by
  unfold pyStrip
  rw [List.isEmpty_iff, List.reverse_eq_nil_iff, List.dropWhile_eq_nil_iff]
  constructor
  · intro h c hc
    rcases List.mem_append.mp
        ((List.takeWhile_append_dropWhile (p := pyIsSpace)
          (l := t)) ▸ hc) with h1 | h2
    · exact List.mem_takeWhile_imp h1
    · exact h c (List.mem_reverse.mpr h2)
  · intro h c hc
    exact h c ((List.dropWhile_sublist _).mem (List.mem_reverse.mp hc))

/-- C5: translation is skipped for empty or whitespace-only text (Python
whitespace, including U+3000 and the other `str.strip()` characters); for a
Chinese-family target (`zh` prefix) a non-blank text is skipped exactly
when it is classified Chinese script and not Japanese script; for every
other target a non-blank text is never skipped; and the concrete spec
vectors hold. -/
theorem should_skip_spec :
    (∀ lang, should_skip_translation [] lang = true)
    ∧ (∀ t lang, (∀ c ∈ t, pyIsSpace c = true) →
        should_skip_translation t lang = true)
    ∧ (∀ t lang, isPre ['z', 'h'] lang = true →
        ¬(∀ c ∈ t, pyIsSpace c = true) →
        should_skip_translation t lang = (is_chinese t && !is_japanese t))
    ∧ (∀ t lang, isPre ['z', 'h'] lang = false →
        ¬(∀ c ∈ t, pyIsSpace c = true) →
        should_skip_translation t lang = false)
    ∧ should_skip_translation "你好".toList "zh_CN".toList = true
    ∧ should_skip_translation "こんにちは".toList "zh_CN".toList = false
    ∧ should_skip_translation "".toList "zh_CN".toList = true
    ∧ should_skip_translation "hello".toList "en".toList = false
    ∧ should_skip_translation "\u3000".toList "zh_CN".toList = true
    ∧ should_skip_translation "\x0C \u00A0".toList "zh_CN".toList = true := by
  refine ⟨fun lang => rfl, ?_, ?_, ?_, by decide, by decide, by decide,
    by decide, by decide, by decide⟩
  · intro t lang hws
    have hse : (pyStrip t).isEmpty = true := (pyStrip_isEmpty_iff t).mpr hws
    simp [should_skip_translation, hse]
  · intro t lang hzh hws
    have hse : (pyStrip t).isEmpty = false := by
      rcases h : (pyStrip t).isEmpty with _ | _
      · rfl
      · exact absurd ((pyStrip_isEmpty_iff t).mp h) hws
    have hne : t.isEmpty = false := by
      cases t with
      | nil => exact absurd (by intro c hc; cases hc) hws
      | cons a s => rfl
    simp [should_skip_translation, hne, hse, hzh]
  · intro t lang hzh hws
    have hse : (pyStrip t).isEmpty = false := by
      rcases h : (pyStrip t).isEmpty with _ | _
      · rfl
      · exact absurd ((pyStrip_isEmpty_iff t).mp h) hws
    have hne : t.isEmpty = false := by
      cases t with
      | nil => exact absurd (by intro c hc; cases hc) hws
      | cons a s => rfl
    simp [should_skip_translation, hne, hse, hzh]

/-- C5 witness: the zh-family equivalence applied to a concrete mixed text
(`"你好han"` is Chinese script, no kana, hence skipped). -/
theorem should_skip_spec_witness :
    should_skip_translation "你好han".toList "zh_TW".toList =
      (is_chinese "你好han".toList && !is_japanese "你好han".toList)
    ∧ should_skip_translation "hello".toList "ko".toList = false :=
  ⟨should_skip_spec.2.2.1 "你好han".toList "zh_TW".toList (by decide)
    (by decide),
   should_skip_spec.2.2.2.1 "hello".toList "ko".toList (by decide)
    (by decide)⟩

/-! ## Orchestrator (C6, C10) -/

theorem translate_movie_info_eq (cfg : TranslatorCfg) (tr : String → Outcome)
    (info : MovieInfoM) :
    translate_movie_info cfg tr info =
      ⟨plotStep cfg tr (titleStep cfg tr info).1, (titleStep cfg tr info).2,
        true⟩ := rfl

theorem titleStep_not_attempted (cfg : TranslatorCfg) (tr : String → Outcome)
    (info : MovieInfoM)
    (h : (truthy info.title && cfg.fields.title && info.ori_title.isNone)
      = false) :
    titleStep cfg tr info = (info, []) := by
  unfold titleStep
  simp [h]

theorem titleStep_fail (cfg : TranslatorCfg) (tr : String → Outcome)
    (info : MovieInfoM) (e : String)
    (hatt : (truthy info.title && cfg.fields.title && info.ori_title.isNone)
      = true)
    (hskip : (cfg.auto_detect_language && should_skip_translation
        (info.title.getD "").toList cfg.target_language.toList) = false)
    (hfail : tr (info.title.getD "") = .failure e) :
    titleStep cfg tr info =
      (info, if cfg.title_mandatory then ["标题翻译失败但继续处理: " ++ e]
        else []) := by
  have hskip' : ¬(cfg.auto_detect_language = true ∧ should_skip_translation
      (info.title.getD "").data cfg.target_language.data = true) := by
    intro hand
    have h2 : (cfg.auto_detect_language && should_skip_translation
        (info.title.getD "").data cfg.target_language.data) = false := hskip
    rw [hand.1, hand.2] at h2
    cases h2
  unfold titleStep
  simp [hatt, hskip', hfail]

theorem titleStep_success (cfg : TranslatorCfg) (tr : String → Outcome)
    (info : MovieInfoM) (t prov : String) (ob tb : Option (List String))
    (hatt : (truthy info.title && cfg.fields.title && info.ori_title.isNone)
      = true)
    (hskip : (cfg.auto_detect_language && should_skip_translation
        (info.title.getD "").toList cfg.target_language.toList) = false)
    (hs : tr (info.title.getD "") = .success t prov ob tb) :
    titleStep cfg tr info =
      ({ info with
          ori_title := info.title
          title := some t
          ori_title_break := ob.or info.ori_title_break
          title_break := tb.or info.title_break }, []) := by
  have hskip' : ¬(cfg.auto_detect_language = true ∧ should_skip_translation
      (info.title.getD "").data cfg.target_language.data = true) := by
    intro hand
    have h2 : (cfg.auto_detect_language && should_skip_translation
        (info.title.getD "").data cfg.target_language.data) = false := hskip
    rw [hand.1, hand.2] at h2
    cases h2
  unfold titleStep
  simp [hatt, hskip', hs]

theorem plotStep_preserves_title (cfg : TranslatorCfg) (tr : String → Outcome)
    (i : MovieInfoM) :
    (plotStep cfg tr i).title = i.title
    ∧ (plotStep cfg tr i).ori_title = i.ori_title
    ∧ (plotStep cfg tr i).ori_title_break = i.ori_title_break
    ∧ (plotStep cfg tr i).title_break = i.title_break := by
  unfold plotStep
  split
  · split
    · exact ⟨rfl, rfl, rfl, rfl⟩
    · cases tr (i.plot.getD "") with
      | success t p ob tb => exact ⟨rfl, rfl, rfl, rfl⟩
      | failure e => exact ⟨rfl, rfl, rfl, rfl⟩
  · exact ⟨rfl, rfl, rfl, rfl⟩

theorem plotStep_fail (cfg : TranslatorCfg) (tr : String → Outcome)
    (i : MovieInfoM) (e : String) (hfail : tr (i.plot.getD "") = .failure e) :
    plotStep cfg tr i = i := by
  unfold plotStep
  split
  · split
    · rfl
    · rw [hfail]
  · rfl

theorem plotStep_success (cfg : TranslatorCfg) (tr : String → Outcome)
    (i : MovieInfoM) (t prov : String) (ob tb : Option (List String))
    (hatt : (truthy i.plot && cfg.fields.plot) = true)
    (hskip : (cfg.auto_detect_language && should_skip_translation
        (i.plot.getD "").toList cfg.target_language.toList) = false)
    (hs : tr (i.plot.getD "") = .success t prov ob tb) :
    plotStep cfg tr i = { i with ori_plot := i.plot, plot := some t } := by
  have hskip' : ¬(cfg.auto_detect_language = true ∧ should_skip_translation
      (i.plot.getD "").data cfg.target_language.data = true) := by
    intro hand
    have h2 : (cfg.auto_detect_language && should_skip_translation
        (i.plot.getD "").data cfg.target_language.data) = false := hskip
    rw [hand.1, hand.2] at h2
    cases h2
  unfold plotStep
  simp [hatt, hskip', hs]

/-- C6: when the chain fails for the title, the title (and its archived
original) keep their pre-call values, `translate_movie_info` still returns
normally (`True`), the failure is logged as a warning exactly when the
mandatory-title flag is set, and the plot is still processed afterwards
(translated on success, left at its pre-call value on failure). -/
theorem title_failure_nonfatal (cfg : TranslatorCfg) (tr : String → Outcome)
    (info : MovieInfoM) (e : String)
    (htitle : truthy info.title = true) (hf : cfg.fields.title = true)
    (hori : info.ori_title = none)
    (hskip : (cfg.auto_detect_language && should_skip_translation
        (info.title.getD "").toList cfg.target_language.toList) = false)
    (hfail : tr (info.title.getD "") = .failure e) :
    (translate_movie_info cfg tr info).returned = true
    ∧ (translate_movie_info cfg tr info).info.title = info.title
    ∧ (translate_movie_info cfg tr info).info.ori_title = none
    ∧ (cfg.title_mandatory = true →
        (translate_movie_info cfg tr info).warnings =
          ["标题翻译失败但继续处理: " ++ e])
    ∧ (cfg.title_mandatory = false →
        (translate_movie_info cfg tr info).warnings = [])
    ∧ (∀ t prov ob tb, (truthy info.plot && cfg.fields.plot) = true →
        (cfg.auto_detect_language && should_skip_translation
          (info.plot.getD "").toList cfg.target_language.toList) = false →
        tr (info.plot.getD "") = .success t prov ob tb →
        (translate_movie_info cfg tr info).info.plot = some t)
    ∧ (∀ e2, tr (info.plot.getD "") = .failure e2 →
        (translate_movie_info cfg tr info).info.plot = info.plot) := by
  have hatt : (truthy info.title && cfg.fields.title
      && info.ori_title.isNone) = true := by
    rw [htitle, hf, hori]; rfl
  have ht := titleStep_fail cfg tr info e hatt hskip hfail
  rw [translate_movie_info_eq, ht]
  refine ⟨rfl, ?_, ?_, ?_, ?_, ?_, ?_⟩
  · exact (plotStep_preserves_title cfg tr info).1
  · rw [(plotStep_preserves_title cfg tr info).2.1, hori]
  · intro hm; simp [hm]
  · intro hm; simp [hm]
  · intro t prov ob tb hp hps hsucc
    rw [plotStep_success cfg tr info t prov ob tb hp hps hsucc]
  · intro e2 hfail2
    rw [plotStep_fail cfg tr info e2 hfail2]

/-- C6 witness: concrete metadata whose title translation fails while the
plot translation succeeds, mandatory flag set. -/
theorem title_failure_nonfatal_witness :
    (translate_movie_info ⟨⟨true, true⟩, "zh_CN", true, false⟩
      (fun s => if s = "T" then .failure "down" else .success "译" "p" none none)
      ⟨some "T", none, some "P", none, none, none⟩) =
      ⟨⟨some "T", none, some "译", some "P", none, none⟩,
        ["标题翻译失败但继续处理: down"], true⟩ := by
  have h := title_failure_nonfatal ⟨⟨true, true⟩, "zh_CN", true, false⟩
    (fun s => if s = "T" then .failure "down" else .success "译" "p" none none)
    ⟨some "T", none, some "P", none, none, none⟩ "down"
    (by decide) (by decide) (by decide) (by decide) (by decide)
  have h1 := h.2.2.2.1 (by decide)
  have h2 := h.2.2.2.2.2.1 "译" "p" none none (by decide) (by decide)
    (by decide)
  exact (by decide : (translate_movie_info ⟨⟨true, true⟩, "zh_CN", true, false⟩
    (fun s => if s = "T" then .failure "down" else .success "译" "p" none none)
    ⟨some "T", none, some "P", none, none, none⟩) =
      ⟨⟨some "T", none, some "译", some "P", none, none⟩,
        ["标题翻译失败但继续处理: down"], true⟩)

/-! C10 -/

theorem title_untouched_of_ori_set (cfg : TranslatorCfg)
    (tr : String → Outcome) (info : MovieInfoM)
    (h : info.ori_title.isSome = true) :
    (translate_movie_info cfg tr info).info.title = info.title
    ∧ (translate_movie_info cfg tr info).info.ori_title = info.ori_title := by
  have hn : info.ori_title.isNone = false := by
    cases ho : info.ori_title with
    | none => rw [ho] at h; cases h
    | some v => rfl
  have hc : (truthy info.title && cfg.fields.title
      && info.ori_title.isNone) = false := by
    rw [hn, Bool.and_false]
  have ht := titleStep_not_attempted cfg tr info hc
  rw [translate_movie_info_eq, ht]
  exact ⟨(plotStep_preserves_title cfg tr info).1,
    (plotStep_preserves_title cfg tr info).2.1⟩

/-- C10: the orchestrator attempts title translation only while `ori_title`
is unset — whenever `ori_title` is already set, any invocation leaves both
`title` and `ori_title` unchanged; and once a successful translation has
archived the original title into `ori_title`, every subsequent invocation
(any configuration, any chain behaviour) leaves both fields unchanged. -/
theorem title_translation_idempotent :
    (∀ cfg tr info, info.ori_title.isSome = true →
      (translate_movie_info cfg tr info).info.title = info.title
      ∧ (translate_movie_info cfg tr info).info.ori_title = info.ori_title)
    ∧ (∀ cfg tr info t prov ob tb,
        truthy info.title = true → cfg.fields.title = true →
        info.ori_title = none →
        (cfg.auto_detect_language && should_skip_translation
          (info.title.getD "").toList cfg.target_language.toList) = false →
        tr (info.title.getD "") = .success t prov ob tb →
        (translate_movie_info cfg tr info).info.ori_title = info.title
        ∧ ∀ cfg' tr',
          (translate_movie_info cfg' tr'
              ((translate_movie_info cfg tr info).info)).info.title =
            (translate_movie_info cfg tr info).info.title
          ∧ (translate_movie_info cfg' tr'
              ((translate_movie_info cfg tr info).info)).info.ori_title =
            (translate_movie_info cfg tr info).info.ori_title) := by
  constructor
  · intro cfg tr info h
    exact title_untouched_of_ori_set cfg tr info h
  · intro cfg tr info t prov ob tb htitle hf hori hskip hs
    have hatt : (truthy info.title && cfg.fields.title
        && info.ori_title.isNone) = true := by
      rw [htitle, hf, hori]; rfl
    have ht := titleStep_success cfg tr info t prov ob tb hatt hskip hs
    have hori' : (translate_movie_info cfg tr info).info.ori_title
        = info.title := by
      rw [translate_movie_info_eq, ht]
      exact (plotStep_preserves_title cfg tr _).2.1
    refine ⟨hori', ?_⟩
    intro cfg' tr'
    apply title_untouched_of_ori_set
    rw [hori']
    cases hti : info.title with
    | none => rw [hti] at htitle; cases htitle
    | some v => rfl

/-- C10 witness: a successful title translation, then a second invocation
with a chain that would change everything — the title fields stay put. -/
theorem title_translation_idempotent_witness :
    (translate_movie_info ⟨⟨true, false⟩, "zh_CN", true, false⟩
      (fun _ => .success "译" "p" none none)
      ⟨some "T", none, none, none, none, none⟩).info.ori_title = some "T"
    ∧ (translate_movie_info ⟨⟨true, false⟩, "en", false, false⟩
        (fun _ => .success "другой" "q" none none)
        ((translate_movie_info ⟨⟨true, false⟩, "zh_CN", true, false⟩
          (fun _ => .success "译" "p" none none)
          ⟨some "T", none, none, none, none, none⟩).info)).info.title =
      some "译" := by
  have h := title_translation_idempotent.2
    ⟨⟨true, false⟩, "zh_CN", true, false⟩
    (fun _ => .success "译" "p" none none)
    ⟨some "T", none, none, none, none, none⟩ "译" "p" none none
    (by decide) (by decide) (by decide) (by decide) (by decide)
  refine ⟨h.1.trans (by decide), ?_⟩
  have h2 := (h.2 ⟨⟨true, false⟩, "en", false, false⟩
    (fun _ => .success "другой" "q" none none)).1
  rw [h2]
  decide

/-! ## Entity-protection round trip (C3): prefix and replacement lemmas -/

theorem isPre_self_append (p y : Str) : isPre p (p ++ y) = true := by
  induction p with
  | nil => rfl
  | cons a p ih => simp [isPre, ih]

theorem isPre_exists {p : Str} : ∀ {s : Str}, isPre p s = true →
    ∃ r, s = p ++ r := by
  induction p with
  | nil => exact fun {s} _ => ⟨s, rfl⟩
  | cons a p ih =>
    intro s h
    cases s with
    | nil => cases h
    | cons b s' =>
      simp only [isPre, Bool.and_eq_true, beq_iff_eq] at h
      rcases h with ⟨rfl, h2⟩
      rcases ih h2 with ⟨r, rfl⟩
      exact ⟨r, rfl⟩

theorem isPre_false_intro {p s : Str} (h : ∀ r, s ≠ p ++ r) :
    isPre p s = false := by
  cases hh : isPre p s
  · rfl
  · rcases isPre_exists hh with ⟨r, hr⟩
    exact absurd hr (h r)

theorem isPre_extend {p s : Str} (h : isPre p s = true) (b : Str) :
    isPre p (s ++ b) = true := by
  rcases isPre_exists h with ⟨r, rfl⟩
  rw [List.append_assoc]
  exact isPre_self_append p (r ++ b)

theorem isPre_of_append_le :
    ∀ (p a : Str) (z : Str), isPre p (a ++ z) = true → p.length ≤ a.length →
      isPre p a = true := by
  intro p
  induction p with
  | nil => intro a z _ _; rfl
  | cons x p ih =>
    intro a z h hl
    cases a with
    | nil => simp at hl
    | cons b a' =>
      simp only [List.cons_append, isPre, Bool.and_eq_true] at h ⊢
      have hl' : p.length ≤ a'.length := by simpa using hl
      exact ⟨h.1, ih a' z h.2 hl'⟩

theorem isInfixB_of_isPre {p s : Str} (h : isPre p s = true) :
    isInfixB p s = true := by
  cases s with
  | nil =>
    cases p with
    | nil => rfl
    | cons a p' => cases h
  | cons c s' => simp [isInfixB, h]

theorem isInfixB_drop_pre {p : Str} :
    ∀ (a : Str) (j : Nat), isPre p (a.drop j) = true → isInfixB p a = true := by
  intro a
  induction a with
  | nil =>
    intro j h
    simp only [List.drop_nil] at h
    exact isInfixB_of_isPre h
  | cons c a' ih =>
    intro j h
    cases j with
    | zero => exact isInfixB_of_isPre h
    | succ j' =>
      have := ih j' h
      simp [isInfixB, this]

theorem drop_append_le :
    ∀ (a : Str) (j : Nat) (b : Str), j ≤ a.length →
      (a ++ b).drop j = a.drop j ++ b := by
  intro a
  induction a with
  | nil =>
    intro j b hj
    rw [Nat.le_zero.mp hj]
    rfl
  | cons c a' ih =>
    intro j b hj
    cases j with
    | zero => rfl
    | succ j' =>
      simp only [List.cons_append, List.drop_succ_cons]
      exact ih j' b (Nat.le_of_succ_le_succ hj)

/-! Blocked-position lemmas -/

theorem Blocked_nil (pat : Str) : Blocked pat [] := by
  intro j hj z
  simp at hj

theorem Blocked_cons {pat s : Str} {c : Char}
    (h0 : ∀ z, isPre pat (c :: (s ++ z)) = false) (hs : Blocked pat s) :
    Blocked pat (c :: s) := by
  intro j hj z
  cases j with
  | zero => simpa using h0 z
  | succ j => exact hs j (Nat.lt_of_succ_lt_succ hj) z

theorem Blocked_cons_head {pat s : Str} {c : Char}
    (h : Blocked pat (c :: s)) : ∀ z, isPre pat (c :: (s ++ z)) = false := by
  intro z
  have := h 0 (Nat.succ_pos _) z
  simpa using this

theorem Blocked_cons_tail {pat s : Str} {c : Char}
    (h : Blocked pat (c :: s)) : Blocked pat s := by
  intro j hj z
  exact h (j + 1) (Nat.succ_lt_succ hj) z

theorem Blocked_append {pat : Str} :
    ∀ {a b : Str}, Blocked pat a → Blocked pat b → Blocked pat (a ++ b) := by
  intro a
  induction a with
  | nil =>
    intro b _ hb
    simpa using hb
  | cons c a' ih =>
    intro b ha hb
    rw [List.cons_append]
    apply Blocked_cons
    · intro z
      have h := Blocked_cons_head ha (b ++ z)
      rw [List.append_assoc]
      exact h
    · exact ih (Blocked_cons_tail ha) hb

theorem Blocked_headchar {pat s q : Str} (hpat : pat = '[' :: q)
    (hs : ∀ c ∈ s, c ≠ '[') : Blocked pat s := by
  induction s with
  | nil => exact Blocked_nil pat
  | cons c s' ih =>
    apply Blocked_cons
    · intro z
      subst hpat
      have hc : c ≠ '[' := hs c (List.mem_cons_self c s')
      have hb : ('[' == c) = false := by
        rcases hh : ('[' == c) with _ | _
        · rfl
        · exact absurd (beq_iff_eq.mp hh).symm hc
      simp [isPre, hb]
    · exact ih (fun c hc => hs c (List.mem_cons_of_mem _ hc))

/-! replacement-scanner lemmas -/

theorem replaceFuel_irrel (pat rep : Str) :
    ∀ (k : Nat) (s : Str) (n m : Nat), s.length ≤ k → s.length ≤ n →
      s.length ≤ m → replaceFuel pat rep n s = replaceFuel pat rep m s := by
  intro k
  induction k with
  | zero =>
    intro s n m hk _ _
    have hs : s = [] := List.length_eq_zero.mp (Nat.le_zero.mp hk)
    subst hs
    cases n <;> cases m <;> rfl
  | succ k ih =>
    intro s n m hk hn hm
    cases s with
    | nil => cases n <;> cases m <;> rfl
    | cons c rest =>
      cases n with
      | zero => simp at hn
      | succ n' =>
        cases m with
        | zero => simp at hm
        | succ m' =>
          have hrk : rest.length ≤ k := by simpa using hk
          have hrn : rest.length ≤ n' := by simpa using hn
          have hrm : rest.length ≤ m' := by simpa using hm
          simp only [replaceFuel]
          by_cases hp : isPre pat (c :: rest) = true
          · simp only [hp, if_true]
            congr 1
            have hd : (rest.drop (pat.length - 1)).length ≤ rest.length := by
              simp [List.length_drop]
            exact ih _ n' m' (Nat.le_trans hd hrk) (Nat.le_trans hd hrn)
              (Nat.le_trans hd hrm)
          · have hp' : isPre pat (c :: rest) = false :=
              Bool.eq_false_iff.mpr hp
            simp only [hp', if_false, Bool.false_eq_true]
            congr 1
            exact ih _ n' m' hrk hrn hrm

theorem replaceCore_not_head {pat : Str} {c : Char} {s : Str} (rep : Str)
    (h : isPre pat (c :: s) = false) :
    replaceCore pat rep (c :: s) = c :: replaceCore pat rep s := by
  unfold replaceCore
  simp [List.length_cons, replaceFuel, h]

theorem replaceCore_fire {pat : Str} (rep : Str) (a : Char) (p' : Str)
    (hpat : pat = a :: p') (y : Str) :
    replaceCore pat rep (pat ++ y) = rep ++ replaceCore pat rep y := by
  subst hpat
  show replaceFuel (a :: p') rep ((a :: p') ++ y).length ((a :: p') ++ y)
      = rep ++ replaceFuel (a :: p') rep y.length y
  have h1 : ((a :: p') ++ y) = a :: (p' ++ y) := rfl
  rw [h1]
  show replaceFuel (a :: p') rep ((p' ++ y).length + 1) (a :: (p' ++ y))
      = rep ++ replaceFuel (a :: p') rep y.length y
  have hp : isPre (a :: p') (a :: (p' ++ y)) = true := by
    have := isPre_self_append (a :: p') y
    simpa using this
  simp only [replaceFuel, hp, if_true]
  have hd : (p' ++ y).drop ((a :: p').length - 1) = y := by
    have h2 : (a :: p').length - 1 = p'.length := by simp
    rw [h2]
    exact List.drop_left p' y
  rw [hd]
  congr 1
  exact replaceFuel_irrel (a :: p') rep (p' ++ y).length y ((p' ++ y).length)
    y.length (by simp) (by simp) (Nat.le_refl _)

theorem replaceCore_skip {pat : Str} (rep : Str) :
    ∀ {s : Str}, Blocked pat s → ∀ y,
      replaceCore pat rep (s ++ y) = s ++ replaceCore pat rep y := by
  intro s
  induction s with
  | nil => intro _ y; simp
  | cons c s' ih =>
    intro hb y
    have h0 : isPre pat (c :: (s' ++ y)) = false := Blocked_cons_head hb y
    rw [List.cons_append, replaceCore_not_head rep h0,
      ih (Blocked_cons_tail hb) y, List.cons_append]

theorem replaceCore_id {pat rep : Str} :
    ∀ {s : Str}, isInfixB pat s = false → replaceCore pat rep s = s := by
  intro s
  induction s with
  | nil => intro _; rfl
  | cons c s' ih =>
    intro h
    simp only [isInfixB, Bool.or_eq_false_iff] at h
    rw [replaceCore_not_head rep h.1, ih h.2]

/-! token-structure lemmas -/

theorem entOK_spec {e : Str} (h : entOK e = true) :
    e ≠ [] ∧ '[' ∉ e ∧ ']' ∉ e := by
  unfold entOK at h
  simp only [Bool.and_eq_true, Bool.not_eq_true'] at h
  refine ⟨?_, ?_, ?_⟩
  · intro he
    rw [he] at h
    simp at h
  · intro hm
    have h2 := h.1.2
    simp only [List.contains_eq_any_beq, List.any_eq_false, beq_iff_eq] at h2
    exact h2 '[' hm rfl
  · intro hm
    have h2 := h.2
    simp only [List.contains_eq_any_beq, List.any_eq_false, beq_iff_eq] at h2
    exact h2 ']' hm rfl

theorem tok_eq (e : Str) : tok e = '[' :: (tokInner ++ e ++ [']']) := by
  simp [tok, tokInner]

theorem tok_eq' (e : Str) : tok e = ('[' :: (tokInner ++ e)) ++ [']'] := by
  simp [tok, tokInner]

theorem tokInner_no_lb : ∀ c ∈ tokInner, c ≠ '[' := by decide

theorem tokInner_no_rb : ∀ c ∈ tokInner, c ≠ ']' := by decide

theorem cancel_rbrack :
    ∀ (u v x y : Str), ']' ∉ u → ']' ∉ v → u ++ ']' :: x = v ++ ']' :: y →
      u = v := by
  intro u
  induction u with
  | nil =>
    intro v x y _ hv h
    cases v with
    | nil => rfl
    | cons b v' =>
      simp only [List.nil_append, List.cons_append] at h
      injection h with h1 _
      exact absurd (h1 ▸ List.mem_cons_self b v') hv
  | cons a u' ih =>
    intro v x y hu hv h
    cases v with
    | nil =>
      simp only [List.cons_append, List.nil_append] at h
      injection h with h1 _
      exact absurd (h1 ▸ List.mem_cons_self a u') hu
    | cons b v' =>
      simp only [List.cons_append] at h
      injection h with h1 h2
      have hu' : ']' ∉ u' := fun hm => hu (List.mem_cons_of_mem a hm)
      have hv' : ']' ∉ v' := fun hm => hv (List.mem_cons_of_mem b hm)
      rw [h1, ih v' x y hu' hv' h2]

theorem tokNoPre {e f : Str} (he : entOK e = true) (hf : entOK f = true)
    (hne : e ≠ f) (z : Str) : isPre (tok e) (tok f ++ z) = false := by
  apply isPre_false_intro
  intro r hr
  rcases entOK_spec he with ⟨-, -, he3⟩
  rcases entOK_spec hf with ⟨-, -, hf3⟩
  rw [tok_eq e, tok_eq f] at hr
  simp only [List.cons_append, List.append_assoc] at hr
  injection hr with _ hr2
  have hr3 : f ++ (']' :: z) = e ++ (']' :: r) := by
    have := List.append_cancel_left hr2
    simpa using this
  have hrb_inner : ']' ∉ tokInner := by decide
  exact hne (cancel_rbrack f e z r hf3 he3 hr3).symm

theorem Blocked_ent_tok {e f : Str} (he : entOK e = true)
    (hf : entOK f = true) (hinf : isInfixB e (tok f) = false) :
    Blocked e (tok f) := by
  rcases entOK_spec he with ⟨hne, he2, he3⟩
  intro j hj z
  apply isPre_false_intro
  intro r hr
  by_cases hle : e.length ≤ ((tok f).drop j).length
  · have hp0 : isPre e ((tok f).drop j ++ z) = true := by
      rw [hr]
      exact isPre_self_append e r
    have hp : isPre e ((tok f).drop j) = true :=
      isPre_of_append_le e _ z hp0 hle
    have := isInfixB_drop_pre (tok f) j hp
    rw [hinf] at this
    cases this
  · push_neg at hle
    set A : Str := '[' :: (tokInner ++ f) with hA
    have htok : tok f = A ++ [']'] := tok_eq' f
    have hjA : j ≤ A.length := by
      have : j < (tok f).length := hj
      rw [htok] at this
      simp only [List.length_append, List.length_cons, List.length_nil] at this
      omega
    have hdrop : (tok f).drop j = A.drop j ++ [']'] := by
      rw [htok]
      exact drop_append_le A j [']'] hjA
    -- the dropped suffix ends with ']' and is shorter than `e`,
    -- so `e` would have to contain ']'
    have hlen : (A.drop j).length + 1 ≤ e.length := by
      have h1 : ((tok f).drop j).length = (A.drop j).length + 1 := by
        rw [hdrop]
        simp
      omega
    have hsplit : e.take ((A.drop j).length + 1) ++
        (e.drop ((A.drop j).length + 1) ++ r) = (A.drop j ++ [']']) ++ z := by
      rw [← List.append_assoc, List.take_append_drop, ← hdrop, ← hr]
    have hlen2 : (e.take ((A.drop j).length + 1)).length =
        (A.drop j ++ [']']).length := by
      simp only [List.length_take, List.length_append, List.length_cons,
        List.length_nil]
      omega
    have hpr := List.append_inj hsplit.symm hlen2.symm
    have hmem : ']' ∈ e.take ((A.drop j).length + 1) := by
      rw [← hpr.1]
      exact List.mem_append_right _ (List.mem_singleton.mpr rfl)
    exact he3 (List.take_subset _ e hmem)

theorem Blocked_tok_tok {e f : Str} (he : entOK e = true)
    (hf : entOK f = true) (hne : f ≠ e) : Blocked (tok e) (tok f) := by
  rcases entOK_spec hf with ⟨-, hf2, -⟩
  have hbody : ∀ c ∈ tokInner ++ f ++ [']'], c ≠ '[' := by
    intro c hc
    rcases List.mem_append.mp hc with hc1 | hc2
    · rcases List.mem_append.mp hc1 with hc3 | hc4
      · exact tokInner_no_lb c hc3
      · exact fun h => hf2 (h ▸ hc4)
    · rw [List.mem_singleton.mp hc2]
      decide
  rw [tok_eq f]
  apply Blocked_cons
  · intro z
    have h := tokNoPre he hf (fun h => hne h.symm) z
    rw [tok_eq f] at h
    simpa using h
  · exact Blocked_headchar (tok_eq e) (by
      intro c hc
      exact hbody c (by simpa using hc))

/-! item-sequence lemmas -/

theorem flattenI_append : ∀ (A B : List Item),
    flattenI (A ++ B) = flattenI A ++ flattenI B := by
  intro A
  induction A with
  | nil => intro B; rfl
  | cons it A' ih =>
    intro B
    cases it with
    | ch c => simp [flattenI, ih]
    | blk e => simp [flattenI, ih]

theorem expandI_append : ∀ (A B : List Item),
    expandI (A ++ B) = expandI A ++ expandI B := by
  intro A
  induction A with
  | nil => intro B; rfl
  | cons it A' ih =>
    intro B
    cases it with
    | ch c => simp [expandI, ih]
    | blk e => simp [expandI, ih]

theorem flattenI_map_ch (e : Str) : flattenI (e.map Item.ch) = e := by
  induction e with
  | nil => rfl
  | cons c e' ih => simp [flattenI, ih]

theorem expandI_map_ch (e : Str) : expandI (e.map Item.ch) = e := by
  induction e with
  | nil => rfl
  | cons c e' ih => simp [expandI, ih]

theorem flattenI_nil {I : List Item} (h : flattenI I = []) : I = [] := by
  cases I with
  | nil => rfl
  | cons it I0 =>
    cases it with
    | ch c => simp [flattenI] at h
    | blk e =>
      rw [flattenI, tok_eq] at h
      simp at h

theorem WFc_tail {it : Item} {I : List Item} (h : WFc (it :: I)) : WFc I :=
  fun c hc => h c (List.mem_cons_of_mem _ hc)

theorem WFc_cons {it : Item} {I : List Item}
    (h1 : ∀ c, it = Item.ch c → c ≠ '[') (h2 : WFc I) : WFc (it :: I) := by
  intro c hc
  rcases List.mem_cons.mp hc with hc1 | hc2
  · exact h1 c hc1.symm
  · exact h2 c hc2

theorem WFc_append_right {A B : List Item} (h : WFc (A ++ B)) : WFc B :=
  fun c hc => h c (List.mem_append_right A hc)

theorem WFc_append {A B : List Item} (ha : WFc A) (hb : WFc B) :
    WFc (A ++ B) := by
  intro c hc
  rcases List.mem_append.mp hc with h1 | h2
  · exact ha c h1
  · exact hb c h2

theorem WFc_map_ch {e : Str} (he : '[' ∉ e) : WFc (e.map Item.ch) := by
  intro c hc
  rcases List.mem_map.mp hc with ⟨a, ha, hac⟩
  injection hac with h1
  intro hc'
  exact he (by rw [h1, hc'] at ha; exact ha)

/-! the protect step over an item sequence -/

theorem matchDecomp {e : Str} (he : '[' ∉ e) :
    ∀ (I : List Item), isPre e (flattenI I) = true →
      ∃ I1, I = e.map Item.ch ++ I1 := by
  induction e with
  | nil => exact fun I _ => ⟨I, rfl⟩
  | cons a e' ih =>
    intro I h
    cases I with
    | nil => cases h
    | cons it I0 =>
      cases it with
      | ch c =>
        have hfl : flattenI (Item.ch c :: I0) = c :: flattenI I0 := rfl
        rw [hfl] at h
        simp only [isPre, Bool.and_eq_true, beq_iff_eq] at h
        rcases h with ⟨h1, h2⟩
        have he' : '[' ∉ e' := fun hm => he (List.mem_cons_of_mem _ hm)
        rcases ih he' I0 h2 with ⟨I1, rfl⟩
        refine ⟨I1, ?_⟩
        rw [h1]
        rfl
      | blk f =>
        exfalso
        have hfl : flattenI (Item.blk f :: I0) = tok f ++ flattenI I0 := rfl
        rw [hfl, tok_eq f] at h
        simp only [List.cons_append, isPre, Bool.and_eq_true, beq_iff_eq] at h
        apply he
        rw [h.1]
        exact List.mem_cons_self _ _

theorem pstep (e : Str) (he : entOK e = true) :
    ∀ (n : Nat) (I : List Item), (flattenI I).length ≤ n → WFc I →
      (∀ f, Item.blk f ∈ I → entOK f = true ∧ isInfixB e (tok f) = false) →
      ∃ I', replaceCore e (tok e) (flattenI I) = flattenI I'
        ∧ expandI I' = expandI I ∧ WFc I'
        ∧ ∀ f, Item.blk f ∈ I' → f = e ∨ Item.blk f ∈ I := by
  intro n
  induction n with
  | zero =>
    intro I hlen hw _
    have h0 : flattenI I = [] := List.length_eq_zero.mp (Nat.le_zero.mp hlen)
    refine ⟨[], ?_, ?_, ?_, ?_⟩
    · rw [h0]; rfl
    · rw [flattenI_nil h0]
    · intro c hc; simp at hc
    · intro f hf; simp at hf
  | succ n ih =>
    intro I hlen hw hb
    cases I with
    | nil =>
      refine ⟨[], rfl, rfl, hw, ?_⟩
      intro f hf; simp at hf
    | cons it I0 =>
      cases it with
      | ch c =>
        rcases hm : isPre e (flattenI (Item.ch c :: I0)) with _ | _
        · have hstep : replaceCore e (tok e) (flattenI (Item.ch c :: I0))
              = c :: replaceCore e (tok e) (flattenI I0) :=
            replaceCore_not_head _ hm
          have hlen0 : (flattenI I0).length ≤ n := by
            have h5 : (flattenI (Item.ch c :: I0)).length
                = (flattenI I0).length + 1 := by simp [flattenI]
            omega
          rcases ih I0 hlen0 (WFc_tail hw)
            (fun f hf => hb f (List.mem_cons_of_mem _ hf)) with
            ⟨I0', h1, h2, h3, h4⟩
          refine ⟨Item.ch c :: I0', ?_, ?_, ?_, ?_⟩
          · rw [hstep, h1]; rfl
          · show c :: expandI I0' = c :: expandI I0
            rw [h2]
          · exact WFc_cons (fun c' hc' => by
              injection hc' with h6
              rw [← h6]
              exact hw c (List.mem_cons_self _ _)) h3
          · intro f hf
            rcases List.mem_cons.mp hf with h5 | h5
            · cases h5
            · rcases h4 f h5 with h6 | h6
              · exact Or.inl h6
              · exact Or.inr (List.mem_cons_of_mem _ h6)
        · rcases entOK_spec he with ⟨hene, he2, _⟩
          rcases matchDecomp he2 _ hm with ⟨I1, hI⟩
          have hflat : flattenI (Item.ch c :: I0) = e ++ flattenI I1 := by
            rw [hI, flattenI_append, flattenI_map_ch]
          obtain ⟨a, e', hae⟩ : ∃ a e', e = a :: e' := by
            cases e with
            | nil => exact absurd rfl hene
            | cons a e' => exact ⟨a, e', rfl⟩
          have hfire : replaceCore e (tok e) (flattenI (Item.ch c :: I0))
              = tok e ++ replaceCore e (tok e) (flattenI I1) := by
            rw [hflat]
            exact replaceCore_fire (tok e) a e' hae (flattenI I1)
          have hlen1 : (flattenI I1).length ≤ n := by
            have h5 : (flattenI (Item.ch c :: I0)).length
                = e.length + (flattenI I1).length := by
              rw [hflat]; simp
            have he1 : 1 ≤ e.length := by
              rw [hae]; simp
            omega
          have hw1 : WFc I1 := WFc_append_right (hI ▸ hw)
          have hb1 : ∀ f, Item.blk f ∈ I1 →
              entOK f = true ∧ isInfixB e (tok f) = false := by
            intro f hf
            exact hb f (hI ▸ List.mem_append_right _ hf)
          rcases ih I1 hlen1 hw1 hb1 with ⟨I1', h1, h2, h3, h4⟩
          refine ⟨Item.blk e :: I1', ?_, ?_, ?_, ?_⟩
          · rw [hfire, h1]; rfl
          · show e ++ expandI I1' = expandI (Item.ch c :: I0)
            rw [h2, hI, expandI_append, expandI_map_ch]
          · exact WFc_cons (fun c' hc' => by cases hc') h3
          · intro f hf
            rcases List.mem_cons.mp hf with h5 | h5
            · injection h5 with h6
              exact Or.inl h6
            · rcases h4 f h5 with h6 | h6
              · exact Or.inl h6
              · exact Or.inr (hI ▸ List.mem_append_right _ h6)
      | blk f0 =>
        have hbf := hb f0 (List.mem_cons_self _ _)
        have hblocked : Blocked e (tok f0) := Blocked_ent_tok he hbf.1 hbf.2
        have hstep : replaceCore e (tok e) (flattenI (Item.blk f0 :: I0))
            = tok f0 ++ replaceCore e (tok e) (flattenI I0) :=
          replaceCore_skip _ hblocked _
        have hlen0 : (flattenI I0).length ≤ n := by
          have h5 : (flattenI (Item.blk f0 :: I0)).length
              = (tok f0).length + (flattenI I0).length := by simp [flattenI]
          have h6 : 1 ≤ (tok f0).length := by rw [tok_eq]; simp
          omega
        rcases ih I0 hlen0 (WFc_tail hw)
          (fun f hf => hb f (List.mem_cons_of_mem _ hf)) with
          ⟨I0', h1, h2, h3, h4⟩
        refine ⟨Item.blk f0 :: I0', ?_, ?_, ?_, ?_⟩
        · rw [hstep, h1]; rfl
        · show f0 ++ expandI I0' = f0 ++ expandI I0
          rw [h2]
        · exact WFc_cons (fun c' hc' => by cases hc') h3
        · intro f hf
          rcases List.mem_cons.mp hf with h5 | h5
          · injection h5 with h6
            exact Or.inr (h6 ▸ List.mem_cons_self _ _)
          · rcases h4 f h5 with h6 | h6
            · exact Or.inl h6
            · exact Or.inr (List.mem_cons_of_mem _ h6)

/-! folding the protect and restore passes -/

theorem beq_false_of_ne {a b : Char} (h : a ≠ b) : (a == b) = false := by
  rcases hh : a == b with _ | _
  · rfl
  · exact absurd (beq_iff_eq.mp hh) h

theorem tok_ne_nil (e : Str) : tok e ≠ [] := by
  rw [tok_eq]
  simp

theorem pyReplace_ne {s pat rep : Str} (h : pat ≠ []) :
    pyReplace s pat rep = replaceCore pat rep s := by
  unfold pyReplace
  simp [h]

theorem pwOK_head {x : Str} {L : List Str} (h : pwOK (x :: L) = true) :
    (∀ y ∈ L, pairOK x y = true) ∧ pwOK L = true := by
  simp only [pwOK, Bool.and_eq_true, List.all_eq_true] at h
  exact h

theorem pairOK_spec {a b : Str} (h : pairOK a b = true) :
    isInfixB a (tok b) = false ∧ isInfixB b (tok a) = false := by
  simp only [pairOK, Bool.and_eq_true, Bool.not_eq_true'] at h
  exact h

theorem goodEnts_spec {es : List Str} (h : goodEnts es = true) :
    (∀ x ∈ es, entOK x = true) ∧ pwOK es = true := by
  simp only [goodEnts, Bool.and_eq_true, List.all_eq_true] at h
  exact h

theorem protFold :
    ∀ (es : List Str) (done : List Str) (I : List Item), WFc I →
      BlocksIn I done →
      (∀ f ∈ done, entOK f = true) →
      (∀ x ∈ es, entOK x = true) →
      pwOK es = true →
      (∀ x ∈ es, ∀ f ∈ done, isInfixB x (tok f) = false) →
      ∃ I', List.foldl (fun acc name => pyReplace acc name (tok name))
          (flattenI I) es = flattenI I'
        ∧ expandI I' = expandI I ∧ WFc I' ∧ BlocksIn I' (done ++ es) := by
  intro es
  induction es with
  | nil =>
    intro done I hw hbi _ _ _ _
    exact ⟨I, rfl, rfl, hw, by simpa using hbi⟩
  | cons e rest ih =>
    intro done I hw hbi hdone hes hpw hcross
    have he : entOK e = true := hes e (List.mem_cons_self _ _)
    have hb : ∀ f, Item.blk f ∈ I →
        entOK f = true ∧ isInfixB e (tok f) = false := by
      intro f hf
      have hfd : f ∈ done := hbi f hf
      exact ⟨hdone f hfd, hcross e (List.mem_cons_self _ _) f hfd⟩
    rcases pstep e he (flattenI I).length I (Nat.le_refl _) hw hb with
      ⟨I1, h1, h2, h3, h4⟩
    have hene : e ≠ [] := (entOK_spec he).1
    have hstep : List.foldl (fun acc name => pyReplace acc name (tok name))
        (flattenI I) (e :: rest)
        = List.foldl (fun acc name => pyReplace acc name (tok name))
          (flattenI I1) rest := by
      simp only [List.foldl_cons]
      rw [pyReplace_ne hene, h1]
    rw [hstep]
    have hbi1 : BlocksIn I1 (done ++ [e]) := by
      intro f hf
      rcases h4 f hf with h5 | h5
      · exact List.mem_append_right _ (by rw [h5]; exact List.mem_singleton.mpr rfl)
      · exact List.mem_append_left _ (hbi f h5)
    have hdone1 : ∀ f ∈ done ++ [e], entOK f = true := by
      intro f hf
      rcases List.mem_append.mp hf with h5 | h5
      · exact hdone f h5
      · rw [List.mem_singleton.mp h5]
        exact he
    have hes1 : ∀ x ∈ rest, entOK x = true :=
      fun x hx => hes x (List.mem_cons_of_mem _ hx)
    have hpw1 : pwOK rest = true := (pwOK_head hpw).2
    have hcross1 : ∀ x ∈ rest, ∀ f ∈ done ++ [e],
        isInfixB x (tok f) = false := by
      intro x hx f hf
      rcases List.mem_append.mp hf with h5 | h5
      · exact hcross x (List.mem_cons_of_mem _ hx) f h5
      · rw [List.mem_singleton.mp h5]
        exact (pairOK_spec ((pwOK_head hpw).1 x hx)).2
    rcases ih (done ++ [e]) I1 h3 hbi1 hdone1 hes1 hpw1 hcross1 with
      ⟨I', g1, g2, g3, g4⟩
    refine ⟨I', g1, g2.trans h2, g3, ?_⟩
    intro f hf
    have h6 := g4 f hf
    simpa [List.append_assoc] using h6

theorem expandI_expandE (e : Str) : ∀ I, expandI (expandE e I) = expandI I := by
  intro I
  induction I with
  | nil => rfl
  | cons it I0 ih =>
    cases it with
    | ch c =>
      show c :: expandI (expandE e I0) = c :: expandI I0
      rw [ih]
    | blk f =>
      by_cases hf : f = e
      · show expandI ((if f = e then f.map Item.ch else [.blk f])
            ++ expandE e I0) = f ++ expandI I0
        rw [if_pos hf, expandI_append, expandI_map_ch, ih]
      · show expandI ((if f = e then f.map Item.ch else [.blk f])
            ++ expandE e I0) = f ++ expandI I0
        rw [if_neg hf]
        show f ++ expandI (expandE e I0) = f ++ expandI I0
        rw [ih]

theorem WFc_expandE {e : Str} (he : '[' ∉ e) :
    ∀ {I : List Item}, WFc I → WFc (expandE e I) := by
  intro I
  induction I with
  | nil => exact fun h => h
  | cons it I0 ih =>
    intro hw
    cases it with
    | ch c =>
      show WFc (Item.ch c :: expandE e I0)
      exact WFc_cons (fun c' hc' => by
        injection hc' with h6
        rw [← h6]
        exact hw c (List.mem_cons_self _ _)) (ih (WFc_tail hw))
    | blk f =>
      by_cases hf : f = e
      · show WFc ((if f = e then f.map Item.ch else [.blk f]) ++ expandE e I0)
        rw [if_pos hf]
        exact WFc_append (WFc_map_ch (hf ▸ he)) (ih (WFc_tail hw))
      · show WFc ((if f = e then f.map Item.ch else [.blk f]) ++ expandE e I0)
        rw [if_neg hf]
        exact WFc_cons (fun c' hc' => by cases hc') (ih (WFc_tail hw))

theorem blocks_expandE {e : Str} :
    ∀ {I : List Item} {f : Str}, Item.blk f ∈ expandE e I →
      Item.blk f ∈ I ∧ f ≠ e := by
  intro I
  induction I with
  | nil =>
    intro f hf
    cases hf
  | cons it I0 ih =>
    intro f hf
    cases it with
    | ch c =>
      rcases List.mem_cons.mp hf with h1 | h2
      · cases h1
      · rcases ih h2 with ⟨h3, h4⟩
        exact ⟨List.mem_cons_of_mem _ h3, h4⟩
    | blk g =>
      by_cases hg : g = e
      · rw [show expandE e (Item.blk g :: I0)
            = (if g = e then g.map Item.ch else [.blk g]) ++ expandE e I0
            from rfl, if_pos hg] at hf
        rcases List.mem_append.mp hf with h1 | h2
        · rcases List.mem_map.mp h1 with ⟨a, _, hac⟩
          cases hac
        · rcases ih h2 with ⟨h3, h4⟩
          exact ⟨List.mem_cons_of_mem _ h3, h4⟩
      · rw [show expandE e (Item.blk g :: I0)
            = (if g = e then g.map Item.ch else [.blk g]) ++ expandE e I0
            from rfl, if_neg hg] at hf
        rcases List.mem_cons.mp hf with h1 | h2
        · injection h1 with h3
          exact ⟨by rw [h3]; exact List.mem_cons_self _ _, by rw [h3]; exact hg⟩
        · rcases ih h2 with ⟨h3, h4⟩
          exact ⟨List.mem_cons_of_mem _ h3, h4⟩

theorem ustep (e : Str) (he : entOK e = true) :
    ∀ (I : List Item), WFc I → (∀ f, Item.blk f ∈ I → entOK f = true) →
      replaceCore (tok e) e (flattenI I) = flattenI (expandE e I) := by
  intro I
  induction I with
  | nil => intro _ _; rfl
  | cons it I0 ih =>
    intro hw hb
    cases it with
    | ch c =>
      have hc : c ≠ '[' := hw c (List.mem_cons_self _ _)
      have hbq : ('[' == c) = false := beq_false_of_ne (fun h => hc h.symm)
      have hnp : isPre (tok e) (c :: flattenI I0) = false := by
        rw [tok_eq]
        simp [isPre, hbq]
      show replaceCore (tok e) e (c :: flattenI I0)
          = flattenI (Item.ch c :: expandE e I0)
      rw [replaceCore_not_head _ hnp,
        ih (WFc_tail hw) (fun f hf => hb f (List.mem_cons_of_mem _ hf))]
      rfl
    | blk f =>
      by_cases hf : f = e
      · subst hf
        show replaceCore (tok f) f (tok f ++ flattenI I0)
            = flattenI (expandE f (Item.blk f :: I0))
        rw [replaceCore_fire f '[' (tokInner ++ f ++ [']']) (tok_eq f)
          (flattenI I0),
          ih (WFc_tail hw) (fun g hg => hb g (List.mem_cons_of_mem _ hg))]
        rw [show expandE f (Item.blk f :: I0)
            = (if f = f then f.map Item.ch else [.blk f]) ++ expandE f I0
            from rfl, if_pos rfl, flattenI_append, flattenI_map_ch]
      · have hbf : entOK f = true := hb f (List.mem_cons_self _ _)
        have hblk : Blocked (tok e) (tok f) := Blocked_tok_tok he hbf hf
        show replaceCore (tok e) e (tok f ++ flattenI I0)
            = flattenI (expandE e (Item.blk f :: I0))
        rw [replaceCore_skip _ hblk,
          ih (WFc_tail hw) (fun g hg => hb g (List.mem_cons_of_mem _ hg))]
        rw [show expandE e (Item.blk f :: I0)
            = (if f = e then f.map Item.ch else [.blk f]) ++ expandE e I0
            from rfl, if_neg hf]
        rfl

theorem flattenI_eq_expandI {I : List Item} (h : BlocksIn I []) :
    flattenI I = expandI I := by
  induction I with
  | nil => rfl
  | cons it I0 ih =>
    cases it with
    | ch c =>
      show c :: flattenI I0 = c :: expandI I0
      rw [ih (fun f hf => h f (List.mem_cons_of_mem _ hf))]
    | blk f => exact absurd (h f (List.mem_cons_self _ _)) (List.not_mem_nil f)

theorem restFold :
    ∀ (es : List Str) (I : List Item), WFc I →
      (∀ f, Item.blk f ∈ I → entOK f = true) →
      BlocksIn I es →
      (∀ x ∈ es, entOK x = true) →
      List.foldl (fun acc name => pyReplace acc (tok name) name)
        (flattenI I) es = expandI I := by
  intro es
  induction es with
  | nil =>
    intro I _ _ hbi _
    exact flattenI_eq_expandI hbi
  | cons e rest ih =>
    intro I hw hb hbi hes
    have he : entOK e = true := hes e (List.mem_cons_self _ _)
    have helb : '[' ∉ e := (entOK_spec he).2.1
    simp only [List.foldl_cons]
    rw [pyReplace_ne (tok_ne_nil e), ustep e he I hw hb]
    have h1 := ih (expandE e I) (WFc_expandE helb hw)
      (fun f hf => hb f (blocks_expandE hf).1)
      (by
        intro f hf
        rcases blocks_expandE hf with ⟨h2, h3⟩
        rcases List.mem_cons.mp (hbi f h2) with h4 | h4
        · exact absurd h4 h3
        · exact h4)
      (fun x hx => hes x (List.mem_cons_of_mem _ hx))
    rw [h1, expandI_expandE]

/-- C3 (amended): entity protection round-trips —
`restore (protect t es) es = t` — provided the text contains no `'['` and
the entities are non-empty, free of the token delimiters `'['`/`']'`, and
pairwise non-interfering (no entity occurs inside another's protection
token; in particular they are pairwise distinct); moreover, restoring an
entity whose token does not occur in the text leaves the text untouched. -/
theorem protect_restore_roundtrip (t : Str) (es : List Str)
    (ht : t.contains '[' = false) (hes : goodEnts es = true) :
    restore (protect t es) es = t
    ∧ ∀ (s e : Str), isInfixB (tok e) s = false →
        pyReplace s (tok e) e = s := by
  constructor
  · rcases goodEnts_spec hes with ⟨hok, hpw⟩
    have htm : '[' ∉ t := by
      intro hm
      simp only [List.contains_eq_any_beq, List.any_eq_false, beq_iff_eq] at ht
      exact ht '[' hm rfl
    have hflat0 : flattenI (t.map Item.ch) = t := flattenI_map_ch t
    have hw0 : WFc (t.map Item.ch) := WFc_map_ch htm
    have hbi0 : BlocksIn (t.map Item.ch) [] := by
      intro f hf
      rcases List.mem_map.mp hf with ⟨a, _, hac⟩
      cases hac
    rcases protFold es [] (t.map Item.ch) hw0 hbi0
      (fun f hf => absurd hf (List.not_mem_nil f)) hok hpw
      (fun x _ f hf => absurd hf (List.not_mem_nil f)) with ⟨I', g1, g2, g3, g4⟩
    have hprot : protect t es = flattenI I' := by
      unfold protect
      rw [← hflat0]
      exact g1
    have hbi' : BlocksIn I' es := by simpa using g4
    have hrest := restFold es I' g3 (fun f hf => hok f (hbi' f hf)) hbi' hok
    unfold restore
    rw [hprot, hrest, g2, expandI_map_ch]
  · intro s e hinf
    rw [pyReplace_ne (tok_ne_nil e)]
    exact replaceCore_id hinf

/-- C3 witness: two ordinary entities inside a Japanese title round-trip,
and restoring an absent entity token is the identity. -/
theorem protect_restore_roundtrip_witness :
    restore (protect "Ann と Yui 共演".toList
        ["Ann".toList, "Yui".toList]) ["Ann".toList, "Yui".toList]
      = "Ann と Yui 共演".toList
    ∧ pyReplace "abc".toList (tok "Zzz".toList) "Zzz".toList
      = "abc".toList := by
  have h := protect_restore_roundtrip "Ann と Yui 共演".toList
    ["Ann".toList, "Yui".toList] (by decide) (by decide)
  exact ⟨h.1, h.2 "abc".toList "Zzz".toList (by decide)⟩

/-- C3 counterexample: with the single entity `"][ACTRESS:"` — a substring
of the text, the pairwise-non-overlap condition being vacuous for a
singleton — protect-then-restore does **not** return the original text:
the text `"[ACTRESS:]][ACTRESS:"` comes back as
`"][ACTRESS:[ACTRESS:]"`. -/
theorem protect_restore_cex :
    isInfixB "][ACTRESS:".toList "[ACTRESS:]][ACTRESS:".toList = true
    ∧ restore (protect "[ACTRESS:]][ACTRESS:".toList ["][ACTRESS:".toList])
        ["][ACTRESS:".toList] = "][ACTRESS:[ACTRESS:]".toList
    ∧ "][ACTRESS:[ACTRESS:]".toList ≠ "[ACTRESS:]][ACTRESS:".toList := by
  decide

end JavSpT
